import Mathlib

/-!
Verification of `generate_forecast.py` (weekend-mountain-forecast).

Text is modelled as `List Char`.  Python regular-expression substitutions,
`str.replace`, `str.strip`, `str.splitlines` and whitespace collapsing are
embedded as executable Lean functions; the nondeterministic environment
(HTTP transport, the completion service, the template file, the clock)
is passed in explicitly.
-/

set_option maxRecDepth 4000

/-- Text of the program, modelled as a list of characters. -/
abbrev Str := List Char

/-- Characters of a string literal. -/
def chars (s : String) : Str := s.data

/-- Whitespace as matched by the regex class and by `str.strip` /
`str.split` (ASCII model of Python whitespace). -/
def isWs (c : Char) : Bool :=
  c == ' ' || c == '\t' || c == '\n' || c == '\r' || c == '\x0b' || c == '\x0c'

/-- ASCII upper-casing of one character (model of `str.upper`). -/
def upperChar (c : Char) : Char :=
  if 'a' ≤ c ∧ c ≤ 'z' then Char.ofNat (c.toNat - 32) else c

/-- ASCII upper-casing of text. -/
def upperStr (s : Str) : Str := s.map upperChar

/-- Case-insensitive match of one pattern character `p` (a lower-case
letter or a symbol) against an input character, as the `(?i)` regex flag
does on ASCII text. -/
def charCI (p c : Char) : Bool := c == p || c == upperChar p

/-- Case-insensitive "the input starts with this pattern". -/
def matchCI : Str → Str → Bool
  | [], _ => true
  | _ :: _, [] => false
  | p :: ps, c :: cs => charCI p c && matchCI ps cs

/-- Drop everything up to and including the first `'>'`; `none` when the
input holds no `'>'`.  This is the non-greedy `.*?>` step of the tag
regexes. -/
def dropThroughGt : Str → Option Str
  | [] => none
  | c :: r => if c = '>' then some r else dropThroughGt r

/-- Drop everything up to and including the first case-insensitive
occurrence of `pat`; `none` when `pat` does not occur.  This is the
non-greedy `.*?</script>` step. -/
def dropThroughCI (pat : Str) : Str → Option Str
  | [] => none
  | c :: r => if matchCI pat (c :: r) then some ((c :: r).drop pat.length)
              else dropThroughCI pat r

/-- The action of `re.sub(r"(?is)<TAG.*?>.*?</TAG>", " ", html)` at one
scan position `c :: r`: when the case-insensitive open pattern matches,
the engine takes the first `'>'` after it and then the first
case-insensitive close pattern after that, and the whole match is
replaced by one space; otherwise (or when no complete match starts here)
the character is kept and the scan moves one position on.  The result is
(emitted character, remainder of the scan). -/
def blockStep (openPat closePat : Str) (c : Char) (r : Str) : Char × Str :=
  if matchCI openPat (c :: r) then
    match dropThroughGt ((c :: r).drop openPat.length) with
    | some afterGt =>
      match dropThroughCI closePat afterGt with
      | some rest => (' ', rest)
      | none => (c, r)
    | none => (c, r)
  else (c, r)

/-- The block regex pass as a fuelled scan (one unit of fuel per scan
position; the wrapper hands in the input length, which always
suffices, so that the recursion is structural and computable by the
kernel). -/
def blockStripF (openPat closePat : Str) : Nat → Str → Str
  | _, [] => []
  | 0, _ :: _ => []
  | fuel + 1, c :: r =>
    (blockStep openPat closePat c r).1 ::
      blockStripF openPat closePat fuel (blockStep openPat closePat c r).2

/-- The script/style block regex pass. -/
def blockStrip (openPat closePat : Str) (l : Str) : Str :=
  blockStripF openPat closePat l.length l

/-- The action of `re.sub(r"(?s)<.*?>", " ", html)` at one scan position:
a `'<'` that is followed by some `'>'` is removed together with
everything through that first `'>'` and replaced by one space; any other
character (and a `'<'` with no later `'>'`) is kept. -/
def tagStep (c : Char) (r : Str) : Char × Str :=
  if c = '<' then
    match dropThroughGt r with
    | some rest => (' ', rest)
    | none => (c, r)
  else (c, r)

/-- The tag regex pass as a fuelled scan. -/
def tagStripF : Nat → Str → Str
  | _, [] => []
  | 0, _ :: _ => []
  | fuel + 1, c :: r => (tagStep c r).1 :: tagStripF fuel (tagStep c r).2

/-- The final `<.*?>` regex pass. -/
def tagStrip (l : Str) : Str := tagStripF l.length l

/-- The action of `str.replace(pat, repl)` at one scan position:
when the (never empty) pattern starts here, emit the replacement and
skip the pattern; otherwise keep the character.  The result is
(emitted text, remainder of the scan). -/
def replaceStep (pat repl : Str) (c : Char) (r : Str) : Str × Str :=
  if pat ≠ [] ∧ pat.isPrefixOf (c :: r) then (repl, (c :: r).drop pat.length)
  else ([c], r)

/-- `str.replace` as a fuelled scan. -/
def pyReplaceF (pat repl : Str) : Nat → Str → Str
  | _, [] => []
  | 0, _ :: _ => []
  | fuel + 1, c :: r =>
    (replaceStep pat repl c r).1 ++ pyReplaceF pat repl fuel (replaceStep pat repl c r).2

/-- One `str.replace(pat, repl)` call: left-to-right, non-overlapping
substring replacement. -/
def pyReplace (pat repl l : Str) : Str := pyReplaceF pat repl l.length l

/-- The action of `re.sub(r"\s+", " ", text)` at one scan position: a
whitespace character and the whitespace run after it become one space;
any other character is kept. -/
def wsStep (c : Char) (r : Str) : Char × Str :=
  if isWs c then (' ', r.dropWhile isWs) else (c, r)

/-- The whitespace-collapsing regex pass as a fuelled scan. -/
def wsSubF : Nat → Str → Str
  | _, [] => []
  | 0, _ :: _ => []
  | fuel + 1, c :: r => (wsStep c r).1 :: wsSubF fuel (wsStep c r).2

/-- One pass of `re.sub(r"\s+", " ", text)`. -/
def wsSub (l : Str) : Str := wsSubF l.length l

/-- Remove trailing whitespace (the right half of `str.strip`). -/
def rstripWs : Str → Str
  | [] => []
  | c :: r =>
    match rstripWs r with
    | [] => if isWs c then [] else [c]
    | d :: t => c :: d :: t

/-- `str.strip()`: drop leading and trailing whitespace. -/
def pstrip (l : Str) : Str := rstripWs (l.dropWhile isWs)

/-- `strip_html` from the source: drop `<script>…</script>` and
`<style>…</style>` blocks, then all remaining `<…>` tags, unescape the
four fixed entities, collapse whitespace runs and strip the ends. -/
def strip_html (html : Str) : Str :=
  let h1 := blockStrip (chars "<script") (chars "</script>") html
  let h2 := blockStrip (chars "<style") (chars "</style>") h1
  let t := tagStrip h2
  let t1 := pyReplace (chars "&nbsp;") (chars " ") t
  let t2 := pyReplace (chars "&amp;") (chars "&") t1
  let t3 := pyReplace (chars "&lt;") (chars "<") t2
  let t4 := pyReplace (chars "&gt;") (chars ">") t3
  pstrip (wsSub t4)

/-! ## Fetcher -/

/-- Outcome of one `requests.get`: either a raised transport exception
(with its message) or a response carrying an HTTP status and a body.  The
transport is an input of the run. -/
inductive HttpOutcome where
  | exn : Str → HttpOutcome
  | resp : Nat → Str → HttpOutcome
deriving DecidableEq

/-- Decimal rendering of a number, as an f-string does. -/
def natChars (n : Nat) : Str := (Nat.repr n).data

/-- `fetch_text` from the source: never raises (the catch-all handler is
the `.exn` branch); HTTP status `>= 400` and transport errors yield
`ok=False` with a bracketed diagnostic naming the cause and the URL;
success yields `ok=True` with the normalized body. -/
def fetch_text (http : Str → HttpOutcome) (url : Str) : Bool × Str :=
  match http url with
  | .exn e => (false, chars "[FETCH ERROR: " ++ e ++ chars "] " ++ url)
  | .resp status body =>
    if 400 ≤ status then (false, chars "[HTTP " ++ natChars status ++ chars "] " ++ url)
    else (true, strip_html body)

/-! ## Source registry -/

/-- `SOURCE_PRIORITY` from the source. -/
def SOURCE_PRIORITY : List Str :=
  [chars "mwis", chars "metoffice", chars "windy", chars "mountainforecast"]

/-- `MAX_CHARS` from the source. -/
def MAX_CHARS : List (Str × Nat) :=
  [(chars "mwis", 9000), (chars "metoffice", 9000),
   (chars "windy", 2000), (chars "mountainforecast", 2000)]

/-- `MAX_CHARS.get(src, 2000)`. -/
def capOf (src : Str) : Nat := (MAX_CHARS.lookup src).getD 2000

/-- `URLS` from the source: area → (source → URL). -/
def URLS : List (Str × List (Str × Str)) :=
  [ (chars "The Peak District",
      [ (chars "mwis", chars "https://www.mwis.org.uk/forecasts/english-and-welsh/peak-district"),
        (chars "metoffice", chars "https://weather.metoffice.gov.uk/specialist-forecasts/mountain/peak-district"),
        (chars "windy", chars "https://www.windy.com/"),
        (chars "mountainforecast", chars "https://www.mountain-forecast.com/") ]),
    (chars "Eryri",
      [ (chars "mwis", chars "https://www.mwis.org.uk/forecasts/english-and-welsh/snowdonia-national-park"),
        (chars "metoffice", chars "https://weather.metoffice.gov.uk/specialist-forecasts/mountain/snowdonia"),
        (chars "windy", chars "https://www.windy.com/"),
        (chars "mountainforecast", chars "https://www.mountain-forecast.com/") ]),
    (chars "Bannau Brycheiniog",
      [ (chars "mwis", chars "https://www.mwis.org.uk/forecasts/english-and-welsh/brecon-beacons"),
        (chars "metoffice", chars "https://weather.metoffice.gov.uk/specialist-forecasts/mountain/brecon-beacons"),
        (chars "windy", chars "https://www.windy.com/"),
        (chars "mountainforecast", chars "https://www.mountain-forecast.com/") ]),
    (chars "The Lake District",
      [ (chars "mwis", chars "https://www.mwis.org.uk/forecasts/english-and-welsh/lake-district"),
        (chars "metoffice", chars "https://weather.metoffice.gov.uk/specialist-forecasts/mountain/lake-district"),
        (chars "windy", chars "https://www.windy.com/"),
        (chars "mountainforecast", chars "https://www.mountain-forecast.com/") ]) ]

/-- `AREAS = list(URLS.keys())`. -/
def AREAS : List Str := URLS.map (fun p => p.1)

/-! ## Source blob builder -/

/-- How an f-string renders a Python bool. -/
def pyBool : Bool → Str
  | true => chars "True"
  | false => chars "False"

/-- The per-source delimiter line of the blob. -/
def sourceHeader (src url : Str) (ok : Bool) : Str :=
  chars "--- SOURCE: " ++ upperStr src ++ chars " URL: " ++ url ++
    chars " OK: " ++ pyBool ok ++ chars " ---"

/-- The source loop of `build_area_sources_blob`: iterate a priority list,
skip a source whose URL is missing or empty (`if not url: continue`), and
for each kept source emit its header line and its fetched text truncated
to the source's character budget. -/
def sourceLoop (http : Str → HttpOutcome) (srcs : List (Str × Str)) :
    List Str → List Str
  | [] => []
  | src :: rest =>
    match List.lookup src srcs with
    | none => sourceLoop http srcs rest
    | some url =>
      if url = [] then sourceLoop http srcs rest
      else
        sourceHeader src url (fetch_text http url).1 ::
          (fetch_text http url).2.take (capOf src) ::
          sourceLoop http srcs rest

/-- `build_area_sources_blob` from the source: the area banner followed by
the per-source parts in priority order, joined with newlines. -/
def build_area_sources_blob (http : Str → HttpOutcome) (area : Str) : Str :=
  List.intercalate (chars "\n")
    ((chars "=== AREA: " ++ area ++ chars " ===") ::
      sourceLoop http ((URLS.lookup area).getD []) SOURCE_PRIORITY)

/-! ## Cell renderer -/

/-- The minimal HTML escaping of `lines_to_cell_html`: `&` first, then
`<`, then `>`. -/
def esc (s : Str) : Str :=
  pyReplace (chars ">") (chars "&gt;")
    (pyReplace (chars "<") (chars "&lt;")
      (pyReplace (chars "&") (chars "&amp;") s))

/-- One rendered line of a cell. -/
def spanWrap (s : Str) : Str :=
  chars "<span class=\"line\">" ++ s ++ chars "</span>"

/-- `lines_to_cell_html` from the source: strip each line, drop the blank
ones, escape the rest, wrap each in a span and the whole in a div. -/
def lines_to_cell_html (lines : List Str) : Str :=
  chars "<div class=\"lines\">" ++
    (lines.filterMap (fun ln =>
      if pstrip ln = [] then none else some (spanWrap (esc (pstrip ln))))).flatten ++
    chars "</div>"

/-! ## Prompt assembly and the completion post-processing -/

/-- The prompt literal before `{area}`. -/
def promptPartA : Str :=
  chars "\nYou are producing ONE forecast cell for ONE area and ONE day.\n\nAREA: "

/-- The prompt literal between `{area}` and `{target_day_label}`. -/
def promptPartB : Str := chars "\nDAY: "

/-- The prompt literal between `{target_day_label}` and `{sources_blob}`. -/
def promptPartC : Str :=
  chars "\n\nSOURCES (best-effort extracted text; may be incomplete):\n"

/-- The prompt literal after `{sources_blob}`: the output schema and the
reconciliation/formatting rules, verbatim from the source. -/
def promptPartD : Str :=
  chars "\n\nOUTPUT:\nReturn EXACTLY 7 lines, in this exact order (no extra lines):\n\nRain: ...\nValley wind: ...\nHill wind: ...\nValley temp: ...\nHill temp: ...\nCloud base: ...\nFreezing level: ...\n\nRULES:\n- Use values you can clearly extract from sources; otherwise use \"n/a\".\n- Min/max formatting:\n  * If min = max, show only the single value (no range).\n  * If min ≠ max, show ONLY the range and do NOT include any average/current value.\n  * Always use \"to\" for ranges (never hyphens).\n- Include wind direction on both wind lines (e.g. \"W to SW 10 to 20 mph\" or \"W 15 mph\").\n- You may append very brief helpful text ONLY if it adds value:\n  * must fit on ONE LINE (no commas/semicolons)\n  * keep under ~25 characters\n  * lowercase\n  * no full stops\n  Examples: \"morning then dry\", \"gusty\", \"hill fog\", \"improving\", \"poor vis on tops\"\n- Prioritise MWIS and Met Office for interpretation; Windy/Mountain-Forecast only if clearly extractable.\n"

/-- The full prompt of `ask_area_for_day` (the f-string, `.strip()`ed). -/
def promptText (area label blob : Str) : Str :=
  pstrip (promptPartA ++ area ++ promptPartB ++ label ++ promptPartC ++ blob ++ promptPartD)

/-- Outcome of one completion call: a raised exception, or the returned
message content (`None` content is already folded to `""` by the
`or ""` in the source). -/
inductive Completion where
  | exn : Completion
  | content : Str → Completion
deriving DecidableEq

/-- `str.splitlines`, modelled with `'\\n'` as the line separator (the
model of universal newlines), as a fuelled scan (the wrapper hands in
the input length, which always suffices): no trailing empty line for a
trailing newline, and `[]` for the empty text. -/
def splitlinesF : Nat → Str → List Str
  | _, [] => []
  | 0, _ :: _ => []
  | fuel + 1, c :: r =>
    match (c :: r).dropWhile (fun d => d != '\n') with
    | [] => [(c :: r).takeWhile (fun d => d != '\n')]
    | _ :: rest => (c :: r).takeWhile (fun d => d != '\n') :: splitlinesF fuel rest

/-- `str.splitlines` (with `'\\n'` as the separator). -/
def splitlinesNL (l : Str) : List Str := splitlinesF l.length l

/-- The sentinel line used by the best-effort corrector. -/
def NA : Str := chars "n/a"

/-- The `while len(lines) < 7: lines.append("n/a")` padding loop (the
loop body runs at most 7 times, so 7 units of fuel always suffice and
the recursion is structural). -/
def pad7F : Nat → List Str → List Str
  | 0, l => l
  | fuel + 1, l => if l.length < 7 then pad7F fuel (l ++ [NA]) else l

/-- The sentinel padding loop of the corrector. -/
def pad7 (l : List Str) : List Str := pad7F 7 l

/-- The line-count corrector of `ask_area_for_day`: a 7-line result passes
through; otherwise truncate to 7 and pad with the sentinel. -/
def correct7 (lines : List Str) : List Str :=
  if lines.length = 7 then lines else pad7 (lines.take 7)

/-- `[l.rstrip() for l in txt.splitlines() if l.strip() != ""]`. -/
def splitClean (txt : Str) : List Str :=
  (splitlinesNL txt).filterMap
    (fun l => if pstrip l = [] then none else some (rstripWs l))

/-- `ask_area_for_day` from the source: build the prompt, call the
completion service, treat an exception or an empty/whitespace-only text
as `None`, otherwise split into non-empty lines and apply the line-count
corrector. -/
def ask_area_for_day (complete : Str → Completion) (area label blob : Str) :
    Option (List Str) :=
  match complete (promptText area label blob) with
  | .exn => none
  | .content s =>
    let txt := pstrip s
    if txt = [] then none else some (correct7 (splitClean txt))

/-! ## The run (`main`) -/

/-- How a run of the process ends: `SystemExit(main())` with a return
code, or an uncaught exception (a nonzero process exit). -/
inductive ExitKind where
  | code : Nat → ExitKind
  | exn : ExitKind
deriving DecidableEq

/-- Observable result of a run: the exit kind and the list of file writes
performed (`index.html` is the only file the program writes). -/
structure RunResult where
  exit : ExitKind
  writes : List (Str × Str)
deriving DecidableEq

/-- The inputs of one run: the credential, the HTTP transport, the
completion service, the content of `page_template.html` (`none` models an
unreadable file, whose `open` raises), the three rendered day titles
(the clock is external), and the rendered timestamp. -/
structure Env where
  apiKey : Option Str
  http : Str → HttpOutcome
  complete : Str → Completion
  template : Option Str
  day1 : Str
  day2 : Str
  day3 : Str
  nowStamp : Str

/-- The fixed label of the outlook slot. -/
def outlookLabel : Str := chars "Outlook (days 4 to 7)"

/-- The four (slot-name, day-label) pairs produced per area: `day1..day3`
over the rendered day titles, then the outlook. -/
def slotPairs (env : Env) : List (Str × Str) :=
  [(chars "day1", env.day1), (chars "day2", env.day2),
   (chars "day3", env.day3), (chars "outlook", outlookLabel)]

/-- The per-area slot loop of `main`: the first `ask_area_for_day`
returning `None` aborts the whole build. -/
def buildSlots (complete : Str → Completion) (area blob : Str) :
    List (Str × Str) → Option (List (Str × Str))
  | [] => some []
  | (slot, label) :: rest =>
    match ask_area_for_day complete area label blob with
    | none => none
    | some lines =>
      match buildSlots complete area blob rest with
      | none => none
      | some m => some ((slot, lines_to_cell_html lines) :: m)

/-- The area loop of `main`, building the `(area, slot) → HTML` cells
(the prefetched per-area blob is recomputed here; both are pure). -/
def buildAreasFrom (env : Env) : List Str → Option (List ((Str × Str) × Str))
  | [] => some []
  | area :: rest =>
    match buildSlots env.complete area (build_area_sources_blob env.http area)
        (slotPairs env) with
    | none => none
    | some cellsA =>
      match buildAreasFrom env rest with
      | none => none
      | some m => some (cellsA.map (fun p => ((area, p.1), p.2)) ++ m)

/-- The four-line page header of `main`. -/
def headerText (env : Env) : Str :=
  List.intercalate (chars "\n")
    [chars "Mountain Forecast",
     chars "Next 3 days (" ++ env.day1 ++ chars " to " ++ env.day3 ++ chars ")",
     chars "Confidence: Moderate",
     chars "Last updated: " ++ env.nowStamp]

/-- The placeholder substitution chain of `main` (literal `str.replace`,
applied left to right). -/
def renderHtml (env : Env) (cells : List ((Str × Str) × Str)) (tpl : Str) : Str :=
  let get := fun (a s : String) => (List.lookup (chars a, chars s) cells).getD []
  let reps : List (String × Str) :=
    [("\x7b\x7bHEADER\x7d\x7d", headerText env),
     ("\x7b\x7bDAY1_TITLE\x7d\x7d", env.day1),
     ("\x7b\x7bDAY2_TITLE\x7d\x7d", env.day2),
     ("\x7b\x7bDAY3_TITLE\x7d\x7d", env.day3),
     ("\x7b\x7bPEAKS_DAY1\x7d\x7d", get "The Peak District" "day1"),
     ("\x7b\x7bPEAKS_DAY2\x7d\x7d", get "The Peak District" "day2"),
     ("\x7b\x7bPEAKS_DAY3\x7d\x7d", get "The Peak District" "day3"),
     ("\x7b\x7bPEAKS_OUTLOOK\x7d\x7d", get "The Peak District" "outlook"),
     ("\x7b\x7bERYRI_DAY1\x7d\x7d", get "Eryri" "day1"),
     ("\x7b\x7bERYRI_DAY2\x7d\x7d", get "Eryri" "day2"),
     ("\x7b\x7bERYRI_DAY3\x7d\x7d", get "Eryri" "day3"),
     ("\x7b\x7bERYRI_OUTLOOK\x7d\x7d", get "Eryri" "outlook"),
     ("\x7b\x7bBANNAU_DAY1\x7d\x7d", get "Bannau Brycheiniog" "day1"),
     ("\x7b\x7bBANNAU_DAY2\x7d\x7d", get "Bannau Brycheiniog" "day2"),
     ("\x7b\x7bBANNAU_DAY3\x7d\x7d", get "Bannau Brycheiniog" "day3"),
     ("\x7b\x7bBANNAU_OUTLOOK\x7d\x7d", get "Bannau Brycheiniog" "outlook"),
     ("\x7b\x7bLAKES_DAY1\x7d\x7d", get "The Lake District" "day1"),
     ("\x7b\x7bLAKES_DAY2\x7d\x7d", get "The Lake District" "day2"),
     ("\x7b\x7bLAKES_DAY3\x7d\x7d", get "The Lake District" "day3"),
     ("\x7b\x7bLAKES_OUTLOOK\x7d\x7d", get "The Lake District" "outlook")]
  reps.foldl (fun acc p => pyReplace (chars p.1) p.2 acc) tpl

/-- `main` and the `raise SystemExit(main())` entry point: no credential
is a silent success with no write; a missing cell is a silent success
with no write; only after every cell is built is the template read (an
unreadable template raises) and `index.html` written once. -/
def mainRun (env : Env) : RunResult :=
  match env.apiKey with
  | none => ⟨.code 0, []⟩
  | some _ =>
    match buildAreasFrom env AREAS with
    | none => ⟨.code 0, []⟩
    | some cells =>
      match env.template with
      | none => ⟨.exn, []⟩
      | some tpl => ⟨.code 0, [(chars "index.html", renderHtml env cells tpl)]⟩

/-- The day labels of the four required slots of one area. -/
def requiredLabels (env : Env) : List Str :=
  [env.day1, env.day2, env.day3, outlookLabel]

/-- All sixteen required (area, day-label) cells of a run. -/
def requiredCells (env : Env) : List (Str × Str) :=
  AREAS.flatMap (fun a => (requiredLabels env).map (fun l => (a, l)))

/-- Whether the completion call for one required cell produced lines. -/
def cellProduced (env : Env) (area label : Str) : Bool :=
  (ask_area_for_day env.complete area label
    (build_area_sources_blob env.http area)).isSome

/-! ## No tag marker survives the tag pass -/

/-- Whether a `'<'` is later followed by a `'>'` — the smallest witness of
a surviving complete tag marker.  (Some later `'<'` is followed by a
`'>'` exactly when the first `'<'` is, so scanning from the first `'<'`
is enough.) -/
def ltThenGt : Str → Bool
  | [] => false
  | c :: r => if c = '<' then r.contains '>' else ltThenGt r

/-! ## Whitespace collapsing: invariants and fixed points -/

/-- No two adjacent whitespace characters. -/
def noAdjWs : Str → Bool
  | [] => true
  | [_] => true
  | a :: b :: r => !(isWs a && isWs b) && noAdjWs (b :: r)

/-- Output invariant of the whitespace pass, as a proposition: every
whitespace character is a plain space, and no two are adjacent. -/
def goodWs (l : Str) : Prop :=
  (∀ c ∈ l, isWs c = true → c = ' ') ∧ noAdjWs l = true

/-- The two tag-marker characters. -/
def isAngle (c : Char) : Bool := c == '<' || c == '>'

/-- The entity-unescaping stage of `strip_html` (`&nbsp;`, `&amp;`,
`&lt;`, `&gt;`, in this order). -/
def entityUnescape (t : Str) : Str :=
  pyReplace (chars "&gt;") (chars ">")
    (pyReplace (chars "&lt;") (chars "<")
      (pyReplace (chars "&amp;") (chars "&")
        (pyReplace (chars "&nbsp;") (chars " ") t)))

/-! ## Blob builder characterization -/

/-- The URL the loop reads for one source (the `dict.get` of the source
mapping, with the absent case folded to the empty string). -/
def urlOf (srcs : List (Str × Str)) (src : Str) : Str :=
  (List.lookup src srcs).getD []

/-- Whether the loop keeps a source: present in the mapping with a
non-empty URL (`if not url: continue`). -/
def srcPresent (srcs : List (Str × Str)) (src : Str) : Bool :=
  !(urlOf srcs src).isEmpty

/-! ## Substring occurrence and the prompt decomposition -/

/-- Whether `pat` occurs as a contiguous segment. -/
def isSubSeg (pat : Str) : Str → Bool
  | [] => pat.isEmpty
  | c :: r => pat.isPrefixOf (c :: r) || isSubSeg pat r

/-! ## Cell renderer characterization -/

/-- The stripped, non-blank lines of a cell (what the loop keeps). -/
def cleanLines (lines : List Str) : List Str :=
  (lines.map pstrip).filter (fun t => !t.isEmpty)

/-- Transport oracle returning an empty success body for every URL. -/
def httpOk : Str → HttpOutcome := fun _ => HttpOutcome.resp 200 []

/-- A run environment whose completion calls all raise. -/
def envFailingCompletion : Env :=
  { apiKey := some (chars "key"), http := httpOk,
    complete := fun _ => Completion.exn, template := some [],
    day1 := chars "Mon", day2 := chars "Tue", day3 := chars "Wed",
    nowStamp := chars "now" }

/-- A run environment with no credential. -/
def envNoKey : Env := { envFailingCompletion with apiKey := none }

/-- A completion oracle answering two lines for every prompt. -/
def completeTwoLines : Str → Completion :=
  fun _ => Completion.content (chars "a\nb")

/-- A transport oracle that raises on every URL. -/
def httpBoom : Str → HttpOutcome := fun _ => HttpOutcome.exn (chars "boom")

/-- C8 counterexample: the process does not always exit 0 — when every
cell is produced but the template file read raises (for example the file
is missing), the exception escapes `main` and the process exits
abnormally. -/
def envNoTemplate : Env :=
  { apiKey := some (chars "key"), http := httpOk,
    complete := fun _ => Completion.content (chars "x"), template := none,
    day1 := chars "Mon", day2 := chars "Tue", day3 := chars "Wed",
    nowStamp := chars "now" }

/-! ## Theorems -/

theorem dropThroughGt_length : ∀ l r, dropThroughGt l = some r → r.length < l.length := by
  intro l
  induction l with
  | nil => intro r h; simp [dropThroughGt] at h
  | cons c cs ih =>
    intro r h
    by_cases hc : c = '>'
    · simp [dropThroughGt, hc] at h
      subst h; simp
    · simp [dropThroughGt, hc] at h
      exact Nat.lt_succ_of_lt (ih r h)

theorem dropThroughCI_length (pat : Str) :
    ∀ l r, dropThroughCI pat l = some r → r.length ≤ l.length := by
  intro l
  induction l with
  | nil => intro r h; simp [dropThroughCI] at h
  | cons c cs ih =>
    intro r h
    by_cases hm : matchCI pat (c :: cs) = true
    · simp [dropThroughCI, hm] at h
      subst h
      simp
    · simp [dropThroughCI, hm] at h
      exact Nat.le_succ_of_le (ih r h)

theorem blockStep_length (openPat closePat : Str) (c : Char) (r : Str) :
    (blockStep openPat closePat c r).2.length ≤ r.length := by
  unfold blockStep
  split
  · split
    · rename_i afterGt hgt
      split
      · rename_i rest hci
        have h1 := dropThroughGt_length _ _ hgt
        have h2 := dropThroughCI_length closePat _ _ hci
        have h3 : ((c :: r).drop openPat.length).length ≤ r.length + 1 := by simp
        simp only []
        omega
      · simp
    · simp
  · simp

theorem blockStripF_congr (openPat closePat : Str) :
    ∀ f g l, l.length ≤ f → l.length ≤ g →
      blockStripF openPat closePat f l = blockStripF openPat closePat g l := by
  intro f
  induction f with
  | zero =>
    intro g l hf _
    have : l = [] := List.length_eq_zero.mp (Nat.le_zero.mp hf)
    subst this
    cases g <;> rfl
  | succ f ih =>
    intro g l hf hg
    cases l with
    | nil => cases g <;> rfl
    | cons c r =>
      cases g with
      | zero => exact absurd hg (by simp)
      | succ g =>
        have hs := blockStep_length openPat closePat c r
        simp only [List.length_cons] at hf hg
        simp only [blockStripF]
        rw [ih g _ (by omega) (by omega)]

theorem blockStrip_cons (openPat closePat : Str) (c : Char) (r : Str) :
    blockStrip openPat closePat (c :: r) =
      (blockStep openPat closePat c r).1 ::
        blockStrip openPat closePat (blockStep openPat closePat c r).2 := by
  have hs := blockStep_length openPat closePat c r
  show blockStripF openPat closePat (r.length + 1) (c :: r) = _
  simp only [blockStripF]
  rw [blockStripF_congr openPat closePat r.length
    (blockStep openPat closePat c r).2.length _ hs (Nat.le_refl _)]
  rfl

theorem tagStep_length (c : Char) (r : Str) : (tagStep c r).2.length ≤ r.length := by
  unfold tagStep
  by_cases hc : c = '<'
  · simp only [hc, if_true]
    cases hgt : dropThroughGt r with
    | none => simp
    | some rest =>
      have := dropThroughGt_length _ _ hgt
      simp only []
      omega
  · simp [hc]

theorem tagStripF_congr :
    ∀ f g l, l.length ≤ f → l.length ≤ g → tagStripF f l = tagStripF g l := by
  intro f
  induction f with
  | zero =>
    intro g l hf _
    have : l = [] := List.length_eq_zero.mp (Nat.le_zero.mp hf)
    subst this
    cases g <;> rfl
  | succ f ih =>
    intro g l hf hg
    cases l with
    | nil => cases g <;> rfl
    | cons c r =>
      cases g with
      | zero => exact absurd hg (by simp)
      | succ g =>
        have hs := tagStep_length c r
        simp only [List.length_cons] at hf hg
        simp only [tagStripF]
        rw [ih g _ (by omega) (by omega)]

theorem tagStrip_cons (c : Char) (r : Str) :
    tagStrip (c :: r) = (tagStep c r).1 :: tagStrip (tagStep c r).2 := by
  have hs := tagStep_length c r
  show tagStripF (r.length + 1) (c :: r) = _
  simp only [tagStripF]
  rw [tagStripF_congr r.length (tagStep c r).2.length _ hs (Nat.le_refl _)]
  rfl

theorem replaceStep_length (pat repl : Str) (c : Char) (r : Str) :
    (replaceStep pat repl c r).2.length ≤ r.length := by
  unfold replaceStep
  split
  · rename_i hp
    rcases hp with ⟨hne, _⟩
    have h1 : pat.length ≠ 0 := by
      intro h0; exact hne (List.length_eq_zero.mp h0)
    simp only [List.length_drop, List.length_cons]
    omega
  · simp

theorem pyReplaceF_congr (pat repl : Str) :
    ∀ f g l, l.length ≤ f → l.length ≤ g →
      pyReplaceF pat repl f l = pyReplaceF pat repl g l := by
  intro f
  induction f with
  | zero =>
    intro g l hf _
    have : l = [] := List.length_eq_zero.mp (Nat.le_zero.mp hf)
    subst this
    cases g <;> rfl
  | succ f ih =>
    intro g l hf hg
    cases l with
    | nil => cases g <;> rfl
    | cons c r =>
      cases g with
      | zero => exact absurd hg (by simp)
      | succ g =>
        have hs := replaceStep_length pat repl c r
        simp only [List.length_cons] at hf hg
        simp only [pyReplaceF]
        rw [ih g _ (by omega) (by omega)]

theorem pyReplace_cons (pat repl : Str) (c : Char) (r : Str) :
    pyReplace pat repl (c :: r) =
      (replaceStep pat repl c r).1 ++ pyReplace pat repl (replaceStep pat repl c r).2 := by
  have hs := replaceStep_length pat repl c r
  show pyReplaceF pat repl (r.length + 1) (c :: r) = _
  simp only [pyReplaceF]
  rw [pyReplaceF_congr pat repl r.length (replaceStep pat repl c r).2.length _
    hs (Nat.le_refl _)]
  rfl

theorem wsStep_length (c : Char) (r : Str) : (wsStep c r).2.length ≤ r.length := by
  unfold wsStep
  by_cases hc : isWs c = true
  · simp only [hc, if_true]
    exact (List.dropWhile_sublist isWs).length_le
  · simp [hc]

theorem wsSubF_congr :
    ∀ f g l, l.length ≤ f → l.length ≤ g → wsSubF f l = wsSubF g l := by
  intro f
  induction f with
  | zero =>
    intro g l hf _
    have : l = [] := List.length_eq_zero.mp (Nat.le_zero.mp hf)
    subst this
    cases g <;> rfl
  | succ f ih =>
    intro g l hf hg
    cases l with
    | nil => cases g <;> rfl
    | cons c r =>
      cases g with
      | zero => exact absurd hg (by simp)
      | succ g =>
        have hs := wsStep_length c r
        simp only [List.length_cons] at hf hg
        simp only [wsSubF]
        rw [ih g _ (by omega) (by omega)]

theorem wsSub_cons (c : Char) (r : Str) :
    wsSub (c :: r) = (wsStep c r).1 :: wsSub (wsStep c r).2 := by
  have hs := wsStep_length c r
  show wsSubF (r.length + 1) (c :: r) = _
  simp only [wsSubF]
  rw [wsSubF_congr r.length (wsStep c r).2.length _ hs (Nat.le_refl _)]
  rfl

/-! ## Character-level lemmas about the normalizer -/

theorem dropThroughGt_none : ∀ l, dropThroughGt l = none → '>' ∉ l := by
  intro l
  induction l with
  | nil => intro _ h; exact (List.not_mem_nil _ h)
  | cons c cs ih =>
    intro h hm
    by_cases hc : c = '>'
    · simp [dropThroughGt, hc] at h
    · simp [dropThroughGt, hc] at h
      rcases List.mem_cons.mp hm with h1 | h1
      · exact hc h1.symm
      · exact ih h h1

theorem mem_dropThroughGt : ∀ l r, dropThroughGt l = some r → ∀ x ∈ r, x ∈ l := by
  intro l
  induction l with
  | nil => intro r h; simp [dropThroughGt] at h
  | cons c cs ih =>
    intro r h x hx
    by_cases hc : c = '>'
    · simp [dropThroughGt, hc] at h
      subst h
      exact List.mem_cons_of_mem _ hx
    · simp [dropThroughGt, hc] at h
      exact List.mem_cons_of_mem _ (ih r h x hx)

theorem mem_dropThroughCI (pat : Str) :
    ∀ l r, dropThroughCI pat l = some r → ∀ x ∈ r, x ∈ l := by
  intro l
  induction l with
  | nil => intro r h; simp [dropThroughCI] at h
  | cons c cs ih =>
    intro r h x hx
    by_cases hm : matchCI pat (c :: cs) = true
    · simp [dropThroughCI, hm] at h
      subst h
      exact List.mem_of_mem_drop hx
    · simp [dropThroughCI, hm] at h
      exact List.mem_cons_of_mem _ (ih r h x hx)

theorem mem_blockStep_snd (openPat closePat : Str) (c : Char) (r : Str) :
    ∀ x ∈ (blockStep openPat closePat c r).2, x ∈ c :: r := by
  unfold blockStep
  split
  · split
    · rename_i afterGt hgt
      split
      · rename_i rest hci
        intro x hx
        simp only [] at hx
        exact mem_dropThroughGt _ _ hgt x (mem_dropThroughCI _ _ _ hci x hx)
          |> List.mem_of_mem_drop
      · intro x hx
        exact List.mem_cons_of_mem _ hx
    · intro x hx
      exact List.mem_cons_of_mem _ hx
  · intro x hx
    exact List.mem_cons_of_mem _ hx

theorem blockStep_fst (openPat closePat : Str) (c : Char) (r : Str) :
    (blockStep openPat closePat c r).1 = c ∨ (blockStep openPat closePat c r).1 = ' ' := by
  unfold blockStep
  split
  · split
    · split
      · right; rfl
      · left; rfl
    · left; rfl
  · left; rfl

theorem mem_blockStrip (openPat closePat : Str) :
    ∀ n l, l.length ≤ n → ∀ x ∈ blockStrip openPat closePat l, x ∈ l ∨ x = ' ' := by
  intro n
  induction n with
  | zero =>
    intro l hl
    have : l = [] := List.length_eq_zero.mp (Nat.le_zero.mp hl)
    subst this
    intro x hx
    exact absurd hx (List.not_mem_nil x)
  | succ n ih =>
    intro l hl x hx
    cases l with
    | nil => exact absurd hx (List.not_mem_nil x)
    | cons c r =>
      rw [blockStrip_cons] at hx
      rcases List.mem_cons.mp hx with h1 | h1
      · rcases blockStep_fst openPat closePat c r with h2 | h2
        · left; rw [h1, h2]; exact List.mem_cons_self _ _
        · right; rw [h1, h2]
      · have hlen : (blockStep openPat closePat c r).2.length ≤ n := by
          have := blockStep_length openPat closePat c r
          simp only [List.length_cons] at hl
          omega
        rcases ih _ hlen x h1 with h2 | h2
        · left; exact mem_blockStep_snd openPat closePat c r x h2
        · right; exact h2

theorem charCI_lt_eq_false (c : Char) (hc : c ≠ '<') : charCI '<' c = false := by
  have h : upperChar '<' = '<' := by decide
  simp [charCI, h, hc]

theorem blockStrip_id_of_no_lt (openPat closePat : Str) (op : Str)
    (hop : openPat = '<' :: op) :
    ∀ n l, l.length ≤ n → '<' ∉ l → blockStrip openPat closePat l = l := by
  intro n
  induction n with
  | zero =>
    intro l hl _
    have : l = [] := List.length_eq_zero.mp (Nat.le_zero.mp hl)
    subst this; rfl
  | succ n ih =>
    intro l hl hlt
    cases l with
    | nil => rfl
    | cons c r =>
      have hc : c ≠ '<' := by
        intro h; exact hlt (h ▸ List.mem_cons_self c r)
      have hm : matchCI openPat (c :: r) = false := by
        rw [hop]
        simp [matchCI, charCI_lt_eq_false c hc]
      rw [blockStrip_cons]
      have hstep : blockStep openPat closePat c r = (c, r) := by
        unfold blockStep
        rw [hm]
        simp
      rw [hstep]
      simp only []
      rw [ih r (by simp only [List.length_cons] at hl; omega)
        (fun h => hlt (List.mem_cons_of_mem _ h))]

theorem mem_tagStep_snd (c : Char) (r : Str) :
    ∀ x ∈ (tagStep c r).2, x ∈ r := by
  unfold tagStep
  split
  · split
    · rename_i rest hgt
      intro x hx
      exact mem_dropThroughGt _ _ hgt x hx
    · intro x hx; exact hx
  · intro x hx; exact hx

theorem tagStep_fst (c : Char) (r : Str) :
    (tagStep c r).1 = c ∨ (tagStep c r).1 = ' ' := by
  unfold tagStep
  split
  · split
    · right; rfl
    · left; rfl
  · left; rfl

theorem mem_tagStrip :
    ∀ n l, l.length ≤ n → ∀ x ∈ tagStrip l, x ∈ l ∨ x = ' ' := by
  intro n
  induction n with
  | zero =>
    intro l hl
    have : l = [] := List.length_eq_zero.mp (Nat.le_zero.mp hl)
    subst this
    intro x hx
    exact absurd hx (List.not_mem_nil x)
  | succ n ih =>
    intro l hl x hx
    cases l with
    | nil => exact absurd hx (List.not_mem_nil x)
    | cons c r =>
      rw [tagStrip_cons] at hx
      rcases List.mem_cons.mp hx with h1 | h1
      · rcases tagStep_fst c r with h2 | h2
        · left; rw [h1, h2]; exact List.mem_cons_self _ _
        · right; rw [h1, h2]
      · have hlen : (tagStep c r).2.length ≤ n := by
          have := tagStep_length c r
          simp only [List.length_cons] at hl
          omega
        rcases ih _ hlen x h1 with h2 | h2
        · left; exact List.mem_cons_of_mem _ (mem_tagStep_snd c r x h2)
        · right; exact h2

theorem tagStrip_id_of_no_lt :
    ∀ n l, l.length ≤ n → '<' ∉ l → tagStrip l = l := by
  intro n
  induction n with
  | zero =>
    intro l hl _
    have : l = [] := List.length_eq_zero.mp (Nat.le_zero.mp hl)
    subst this; rfl
  | succ n ih =>
    intro l hl hlt
    cases l with
    | nil => rfl
    | cons c r =>
      have hc : c ≠ '<' := by
        intro h; exact hlt (h ▸ List.mem_cons_self c r)
      rw [tagStrip_cons]
      have hstep : tagStep c r = (c, r) := by
        unfold tagStep
        simp [hc]
      rw [hstep]
      simp only []
      rw [ih r (by simp only [List.length_cons] at hl; omega)
        (fun h => hlt (List.mem_cons_of_mem _ h))]

theorem pyReplace_id_of_not_mem (p : Char) (ps repl : Str) :
    ∀ n l, l.length ≤ n → p ∉ l → pyReplace (p :: ps) repl l = l := by
  intro n
  induction n with
  | zero =>
    intro l hl _
    have : l = [] := List.length_eq_zero.mp (Nat.le_zero.mp hl)
    subst this; rfl
  | succ n ih =>
    intro l hl hp
    cases l with
    | nil => rfl
    | cons c r =>
      have hc : c ≠ p := by
        intro h; exact hp (h ▸ List.mem_cons_self c r)
      have hpre : (p :: ps).isPrefixOf (c :: r) = false := by
        show (p == c && ps.isPrefixOf r) = false
        simp [hc.symm]
      rw [pyReplace_cons]
      have hstep : replaceStep (p :: ps) repl c r = ([c], r) := by
        unfold replaceStep
        rw [if_neg]
        intro h
        rw [hpre] at h
        exact absurd h.2 (by simp)
      rw [hstep]
      simp only [List.singleton_append]
      rw [ih r (by simp only [List.length_cons] at hl; omega)
        (fun h => hp (List.mem_cons_of_mem _ h))]

/-- Members of the output of a single-character `str.replace`: either
characters of the replacement or kept input characters, which differ from
the pattern character. -/
theorem mem_pyReplace_single (p : Char) (repl : Str) :
    ∀ n l, l.length ≤ n → ∀ x ∈ pyReplace [p] repl l, x ∈ repl ∨ (x ∈ l ∧ x ≠ p) := by
  intro n
  induction n with
  | zero =>
    intro l hl
    have : l = [] := List.length_eq_zero.mp (Nat.le_zero.mp hl)
    subst this
    intro x hx
    exact absurd hx (List.not_mem_nil x)
  | succ n ih =>
    intro l hl x hx
    cases l with
    | nil => exact absurd hx (List.not_mem_nil x)
    | cons c r =>
      rw [pyReplace_cons] at hx
      by_cases hc : c = p
      · have hpre : [p].isPrefixOf (c :: r) = true := by
          show (p == c && List.isPrefixOf [] r) = true
          simp [hc]
        have hstep : replaceStep [p] repl c r = (repl, r) := by
          unfold replaceStep
          rw [if_pos ⟨by simp, hpre⟩]
          simp
        rw [hstep] at hx
        simp only [] at hx
        rcases List.mem_append.mp hx with h1 | h1
        · left; exact h1
        · have hlen : r.length ≤ n := by
            simp only [List.length_cons] at hl; omega
          rcases ih r hlen x h1 with h2 | h2
          · left; exact h2
          · right; exact ⟨List.mem_cons_of_mem _ h2.1, h2.2⟩
      · have hpc : p ≠ c := fun h => hc h.symm
        have hpre : [p].isPrefixOf (c :: r) = false := by
          show (p == c && List.isPrefixOf [] r) = false
          simp [hpc]
        have hstep : replaceStep [p] repl c r = ([c], r) := by
          unfold replaceStep
          rw [if_neg]
          intro h
          rw [hpre] at h
          exact absurd h.2 (by simp)
        rw [hstep] at hx
        simp only [List.singleton_append] at hx
        rcases List.mem_cons.mp hx with h1 | h1
        · right; exact ⟨h1 ▸ List.mem_cons_self c r, h1 ▸ hc⟩
        · have hlen : r.length ≤ n := by
            simp only [List.length_cons] at hl; omega
          rcases ih r hlen x h1 with h2 | h2
          · left; exact h2
          · right; exact ⟨List.mem_cons_of_mem _ h2.1, h2.2⟩

theorem contains_eq_false_of_not_mem {l : Str} {x : Char} (h : x ∉ l) :
    l.contains x = false := by
  rcases hc : l.contains x with _ | _
  · rfl
  · exact absurd (List.elem_iff.mp hc) h

theorem contains_eq_true_of_mem {l : Str} {x : Char} (h : x ∈ l) :
    l.contains x = true := by
  show l.elem x = true
  exact List.elem_eq_true_of_mem h

theorem mem_of_contains {l : Str} {x : Char} (h : l.contains x = true) : x ∈ l := by
  exact List.mem_of_elem_eq_true h

theorem tagStrip_no_pair :
    ∀ n l, l.length ≤ n → ltThenGt (tagStrip l) = false := by
  intro n
  induction n with
  | zero =>
    intro l hl
    have : l = [] := List.length_eq_zero.mp (Nat.le_zero.mp hl)
    subst this; rfl
  | succ n ih =>
    intro l hl
    cases l with
    | nil => rfl
    | cons c r =>
      rw [tagStrip_cons]
      by_cases hc : c = '<'
      · cases hgt : dropThroughGt r with
        | some rest =>
          have hstep : tagStep c r = (' ', rest) := by
            unfold tagStep
            simp [hc, hgt]
          rw [hstep]
          simp only [ltThenGt]
          rw [if_neg (by decide)]
          have := dropThroughGt_length _ _ hgt
          exact ih rest (by simp only [List.length_cons] at hl; omega)
        | none =>
          have hstep : tagStep c r = (c, r) := by
            unfold tagStep
            simp [hc, hgt]
          rw [hstep]
          simp only [ltThenGt]
          rw [if_pos hc]
          have hnr : '>' ∉ r := dropThroughGt_none r hgt
          have hnt : '>' ∉ tagStrip r := by
            intro hmem
            rcases mem_tagStrip r.length r (Nat.le_refl _) '>' hmem with h1 | h1
            · exact hnr h1
            · exact absurd h1 (by decide)
          exact contains_eq_false_of_not_mem hnt
      · have hstep : tagStep c r = (c, r) := by
          unfold tagStep
          simp [hc]
        rw [hstep]
        simp only [ltThenGt]
        rw [if_neg hc]
        exact ih r (by simp only [List.length_cons] at hl; omega)

theorem noAdjWs_tail {a : Char} {r : Str} (h : noAdjWs (a :: r) = true) :
    noAdjWs r = true := by
  cases r with
  | nil => rfl
  | cons b t =>
    have h1 : (!(isWs a && isWs b) && noAdjWs (b :: t)) = true := h
    simp only [Bool.and_eq_true] at h1
    exact h1.2

theorem noAdjWs_head_pair {a b : Char} {r : Str}
    (h : noAdjWs (a :: b :: r) = true) : (isWs a && isWs b) = false := by
  have h1 : (!(isWs a && isWs b) && noAdjWs (b :: r)) = true := h
  rcases hab : (isWs a && isWs b) with _ | _
  · rfl
  · rw [hab] at h1
    simp at h1

theorem noAdjWs_cons_of_head {c : Char} {m : Str} (hc : isWs c = false)
    (hm : noAdjWs m = true) : noAdjWs (c :: m) = true := by
  cases m with
  | nil => rfl
  | cons d t =>
    show (!(isWs c && isWs d) && noAdjWs (d :: t)) = true
    rw [hc]
    simp [hm]

theorem noAdjWs_dropWhile (p : Char → Bool) :
    ∀ l, noAdjWs l = true → noAdjWs (l.dropWhile p) = true := by
  intro l
  induction l with
  | nil => intro _; rfl
  | cons c r ih =>
    intro h
    rw [List.dropWhile_cons]
    by_cases hp : p c = true
    · rw [if_pos hp]
      exact ih (noAdjWs_tail h)
    · rw [if_neg hp]
      exact h

theorem dropWhile_head_not (p : Char → Bool) :
    ∀ (l : Str) (d : Char) (t : Str), l.dropWhile p = d :: t → p d = false := by
  intro l
  induction l with
  | nil => intro d t h; simp at h
  | cons c r ih =>
    intro d t h
    rw [List.dropWhile_cons] at h
    by_cases hp : p c = true
    · rw [if_pos hp] at h
      exact ih d t h
    · rw [if_neg hp] at h
      cases h
      exact Bool.not_eq_true _ |>.mp hp

theorem rstripWs_eq_nil : ∀ l, rstripWs l = [] → ∀ x ∈ l, isWs x = true := by
  intro l
  induction l with
  | nil => intro _ x hx; exact absurd hx (List.not_mem_nil x)
  | cons c r ih =>
    intro h x hx
    cases hr : rstripWs r with
    | nil =>
      have hc : isWs c = true := by
        by_contra hc
        have : rstripWs (c :: r) = [c] := by
          simp [rstripWs, hr, hc]
        rw [this] at h
        exact absurd h (by simp)
      rcases List.mem_cons.mp hx with h1 | h1
      · rw [h1]; exact hc
      · exact ih hr x h1
    | cons d t =>
      have : rstripWs (c :: r) = c :: d :: t := by
        simp [rstripWs, hr]
      rw [this] at h
      exact absurd h (by simp)

theorem mem_rstripWs : ∀ l x, x ∈ rstripWs l → x ∈ l := by
  intro l
  induction l with
  | nil => intro x hx; exact absurd hx (List.not_mem_nil x)
  | cons c r ih =>
    intro x hx
    cases hr : rstripWs r with
    | nil =>
      by_cases hc : isWs c = true
      · have : rstripWs (c :: r) = [] := by simp [rstripWs, hr, hc]
        rw [this] at hx
        exact absurd hx (List.not_mem_nil x)
      · have : rstripWs (c :: r) = [c] := by simp [rstripWs, hr, hc]
        rw [this] at hx
        rcases List.mem_cons.mp hx with h1 | h1
        · rw [h1]; exact List.mem_cons_self c r
        · exact absurd h1 (List.not_mem_nil x)
    | cons d t =>
      have heq : rstripWs (c :: r) = c :: d :: t := by simp [rstripWs, hr]
      rw [heq] at hx
      rcases List.mem_cons.mp hx with h1 | h1
      · rw [h1]; exact List.mem_cons_self c r
      · have : x ∈ rstripWs r := by rw [hr]; exact h1
        exact List.mem_cons_of_mem _ (ih x this)

theorem rstripWs_head :
    ∀ l d t, rstripWs l = d :: t → ∃ r', l = d :: r' := by
  intro l
  induction l with
  | nil => intro d t h; simp [rstripWs] at h
  | cons c r ih =>
    intro d t h
    cases hr : rstripWs r with
    | nil =>
      by_cases hc : isWs c = true
      · have : rstripWs (c :: r) = [] := by simp [rstripWs, hr, hc]
        rw [this] at h
        exact absurd h.symm (by simp)
      · have : rstripWs (c :: r) = [c] := by simp [rstripWs, hr, hc]
        rw [this] at h
        cases h
        exact ⟨r, rfl⟩
    | cons e u =>
      have heq : rstripWs (c :: r) = c :: e :: u := by simp [rstripWs, hr]
      rw [heq] at h
      cases h
      exact ⟨r, rfl⟩

theorem rstripWs_idem : ∀ l, rstripWs (rstripWs l) = rstripWs l := by
  intro l
  induction l with
  | nil => rfl
  | cons c r ih =>
    cases hr : rstripWs r with
    | nil =>
      by_cases hc : isWs c = true
      · have : rstripWs (c :: r) = [] := by simp [rstripWs, hr, hc]
        rw [this]; rfl
      · have heq : rstripWs (c :: r) = [c] := by simp [rstripWs, hr, hc]
        rw [heq]
        simp [rstripWs, hc]
    | cons d t =>
      have heq : rstripWs (c :: r) = c :: d :: t := by simp [rstripWs, hr]
      rw [heq]
      have h2 : rstripWs (d :: t) = d :: t := by
        rw [← hr] at *
        rw [ih]
      show (match rstripWs (d :: t) with
        | [] => if isWs c then [] else [c]
        | d :: t => c :: d :: t) = c :: d :: t
      rw [h2]

theorem noAdjWs_rstripWs : ∀ l, noAdjWs l = true → noAdjWs (rstripWs l) = true := by
  intro l
  induction l with
  | nil => intro _; rfl
  | cons c r ih =>
    intro h
    cases hr : rstripWs r with
    | nil =>
      by_cases hc : isWs c = true
      · have : rstripWs (c :: r) = [] := by simp [rstripWs, hr, hc]
        rw [this]; rfl
      · have : rstripWs (c :: r) = [c] := by simp [rstripWs, hr, hc]
        rw [this]; rfl
    | cons d t =>
      have heq : rstripWs (c :: r) = c :: d :: t := by simp [rstripWs, hr]
      rw [heq]
      obtain ⟨r', hr'⟩ := rstripWs_head r d t hr
      have hpair : (isWs c && isWs d) = false := by
        rw [hr'] at h
        exact noAdjWs_head_pair h
      show (!(isWs c && isWs d) && noAdjWs (d :: t)) = true
      rw [hpair]
      have : noAdjWs (d :: t) = true := by
        rw [← hr]
        exact ih (noAdjWs_tail h)
      simp [this]

theorem goodWs_tail {c : Char} {r : Str} (h : goodWs (c :: r)) : goodWs r :=
  ⟨fun x hx hw => h.1 x (List.mem_cons_of_mem _ hx) hw, noAdjWs_tail h.2⟩

theorem wsSub_good : ∀ n l, l.length ≤ n → goodWs (wsSub l) := by
  intro n
  induction n with
  | zero =>
    intro l hl
    have : l = [] := List.length_eq_zero.mp (Nat.le_zero.mp hl)
    subst this
    exact ⟨fun x hx => absurd hx (List.not_mem_nil x), rfl⟩
  | succ n ih =>
    intro l hl
    cases l with
    | nil => exact ⟨fun x hx => absurd hx (List.not_mem_nil x), rfl⟩
    | cons c r =>
      simp only [List.length_cons] at hl
      rw [wsSub_cons]
      by_cases hws : isWs c = true
      · have hstep : wsStep c r = (' ', r.dropWhile isWs) := by
          unfold wsStep; simp [hws]
        rw [hstep]
        simp only []
        have hmlen : (r.dropWhile isWs).length ≤ n := by
          have := (List.dropWhile_sublist (l := r) isWs).length_le
          omega
        have hgood := ih _ hmlen
        constructor
        · intro x hx hxws
          rcases List.mem_cons.mp hx with h1 | h1
          · exact h1
          · exact hgood.1 x h1 hxws
        · cases hm : r.dropWhile isWs with
          | nil => rfl
          | cons d m' =>
            have hd : isWs d = false := dropWhile_head_not isWs r d m' hm
            have hgood2 : noAdjWs (wsSub (d :: m')) = true := by
              have h2 := hgood.2
              rw [hm] at h2
              exact h2
            have hdm : wsSub (d :: m') = d :: wsSub (wsStep d m').2 := by
              rw [wsSub_cons]
              unfold wsStep
              rw [if_neg (by simp [hd])]
            rw [hdm]
            rw [hdm] at hgood2
            show (!(isWs ' ' && isWs d) && noAdjWs (d :: wsSub (wsStep d m').2)) = true
            rw [hd]
            simpa using hgood2
      · have hstep : wsStep c r = (c, r) := by
          unfold wsStep; simp [hws]
        rw [hstep]
        simp only []
        have hgood := ih r (by omega)
        constructor
        · intro x hx hxws
          rcases List.mem_cons.mp hx with h1 | h1
          · rw [h1] at hxws
            exact absurd hxws (by simp [hws])
          · exact hgood.1 x h1 hxws
        · exact noAdjWs_cons_of_head (by simp [hws]) hgood.2

theorem wsSub_id_of_good : ∀ n l, l.length ≤ n → goodWs l → wsSub l = l := by
  intro n
  induction n with
  | zero =>
    intro l hl _
    have : l = [] := List.length_eq_zero.mp (Nat.le_zero.mp hl)
    subst this; rfl
  | succ n ih =>
    intro l hl hgood
    cases l with
    | nil => rfl
    | cons c r =>
      simp only [List.length_cons] at hl
      rw [wsSub_cons]
      by_cases hws : isWs c = true
      · have hc : c = ' ' := hgood.1 c (List.mem_cons_self c r) hws
        cases r with
        | nil =>
          have hstep : wsStep c [] = (' ', []) := by
            unfold wsStep; simp [hws, List.dropWhile_nil]
          rw [hstep]
          simp only []
          rw [hc]
          rfl
        | cons d r' =>
          have hd : isWs d = false := by
            have := noAdjWs_head_pair hgood.2
            rw [hws] at this
            simpa using this
          have hdw : (d :: r').dropWhile isWs = d :: r' := by
            rw [List.dropWhile_cons, if_neg (by simp [hd])]
          have hstep : wsStep c (d :: r') = (' ', d :: r') := by
            unfold wsStep
            rw [if_pos hws, hdw]
          rw [hstep]
          simp only []
          rw [hc]
          rw [ih (d :: r') (by simp only [List.length_cons] at *; omega)
            (goodWs_tail hgood)]
      · have hstep : wsStep c r = (c, r) := by
          unfold wsStep; simp [hws]
        rw [hstep]
        simp only []
        rw [ih r (by omega) (goodWs_tail hgood)]

theorem goodWs_rstripWs {l : Str} (h : goodWs l) : goodWs (rstripWs l) :=
  ⟨fun x hx hw => h.1 x (mem_rstripWs l x hx) hw, noAdjWs_rstripWs l h.2⟩

theorem goodWs_dropWhile {l : Str} (p : Char → Bool) (h : goodWs l) :
    goodWs (l.dropWhile p) :=
  ⟨fun x hx hw => h.1 x ((List.dropWhile_sublist p).subset hx) hw,
   noAdjWs_dropWhile p l h.2⟩

/-- The composite `pstrip ∘ wsSub` (the last two steps of `strip_html`)
is a closure: its image is pointwise fixed by both passes. -/
theorem collapse_fix (x : Str) :
    wsSub (pstrip (wsSub x)) = pstrip (wsSub x) ∧
      pstrip (pstrip (wsSub x)) = pstrip (wsSub x) := by
  have hgoodw : goodWs (wsSub x) := wsSub_good x.length x (Nat.le_refl _)
  have hgoodd : goodWs ((wsSub x).dropWhile isWs) := goodWs_dropWhile isWs hgoodw
  have hgoodt : goodWs (pstrip (wsSub x)) := goodWs_rstripWs hgoodd
  have h1 : wsSub (pstrip (wsSub x)) = pstrip (wsSub x) :=
    wsSub_id_of_good (pstrip (wsSub x)).length _ (Nat.le_refl _) hgoodt
  refine ⟨h1, ?_⟩
  show pstrip (rstripWs ((wsSub x).dropWhile isWs)) = rstripWs ((wsSub x).dropWhile isWs)
  unfold pstrip
  cases ht : rstripWs ((wsSub x).dropWhile isWs) with
  | nil => rfl
  | cons d u =>
    obtain ⟨r', hr'⟩ := rstripWs_head _ d u ht
    have hd : isWs d = false := dropWhile_head_not isWs (wsSub x) d r' hr'
    have hdw : (d :: u).dropWhile isWs = d :: u := by
      rw [List.dropWhile_cons, if_neg (by simp [hd])]
    rw [hdw, ← ht, rstripWs_idem]

/-! ## Filters through the whitespace passes -/

theorem filter_dropWhileWs (p : Char → Bool) (hp : ∀ c, isWs c = true → p c = false) :
    ∀ l : Str, (l.dropWhile isWs).filter p = l.filter p := by
  intro l
  induction l with
  | nil => rfl
  | cons c r ih =>
    rw [List.dropWhile_cons]
    by_cases hc : isWs c = true
    · rw [if_pos hc, ih, List.filter_cons, if_neg (by simp [hp c hc])]
    · rw [if_neg hc]

theorem filter_rstripWs (p : Char → Bool) (hp : ∀ c, isWs c = true → p c = false) :
    ∀ l : Str, (rstripWs l).filter p = l.filter p := by
  intro l
  induction l with
  | nil => rfl
  | cons c r ih =>
    cases hr : rstripWs r with
    | nil =>
      have hall : r.filter p = [] := by
        rw [List.filter_eq_nil_iff]
        intro a ha
        simp [hp a (rstripWs_eq_nil r hr a ha)]
      by_cases hc : isWs c = true
      · have : rstripWs (c :: r) = [] := by simp [rstripWs, hr, hc]
        rw [this, List.filter_cons, if_neg (by simp [hp c hc]), hall]
        rfl
      · have : rstripWs (c :: r) = [c] := by simp [rstripWs, hr, hc]
        rw [this, List.filter_cons, List.filter_cons, hall]
        rfl
    | cons d t =>
      have heq : rstripWs (c :: r) = c :: d :: t := by simp [rstripWs, hr]
      rw [heq]
      have hdt : (d :: t).filter p = r.filter p := by rw [← hr]; exact ih
      rw [List.filter_cons, hdt, ← List.filter_cons]

theorem filter_wsSub (p : Char → Bool) (hp : ∀ c, isWs c = true → p c = false) :
    ∀ n (l : Str), l.length ≤ n → (wsSub l).filter p = l.filter p := by
  intro n
  induction n with
  | zero =>
    intro l hl
    have : l = [] := List.length_eq_zero.mp (Nat.le_zero.mp hl)
    subst this; rfl
  | succ n ih =>
    intro l hl
    cases l with
    | nil => rfl
    | cons c r =>
      simp only [List.length_cons] at hl
      rw [wsSub_cons]
      by_cases hws : isWs c = true
      · have hstep : wsStep c r = (' ', r.dropWhile isWs) := by
          unfold wsStep; simp [hws]
        rw [hstep]
        simp only []
        have hmlen : (r.dropWhile isWs).length ≤ n := by
          have := (List.dropWhile_sublist (l := r) isWs).length_le
          omega
        rw [List.filter_cons, if_neg (by simp [hp ' ' (by decide)]),
          ih _ hmlen, filter_dropWhileWs p hp,
          List.filter_cons, if_neg (by simp [hp c hws])]
      · have hstep : wsStep c r = (c, r) := by
          unfold wsStep; simp [hws]
        rw [hstep]
        simp only []
        rw [List.filter_cons, List.filter_cons, ih r (by omega)]

theorem isAngle_false_of_ws (c : Char) (h : isWs c = true) : isAngle c = false := by
  simp only [isWs, Bool.or_eq_true, beq_iff_eq] at h
  rcases h with ((((h | h) | h) | h) | h) | h <;> subst h <;> rfl

theorem ltThenGt_filter :
    ∀ l : Str, ltThenGt (l.filter isAngle) = ltThenGt l := by
  intro l
  induction l with
  | nil => rfl
  | cons c r ih =>
    rw [List.filter_cons]
    by_cases hc : c = '<'
    · have : isAngle c = true := by simp [isAngle, hc]
      rw [if_pos (by simp [this])]
      show ltThenGt (c :: r.filter isAngle) = ltThenGt (c :: r)
      simp only [ltThenGt, if_pos hc]
      rcases hgt : r.contains '>' with _ | _
      · have hnm : '>' ∉ r := by
          intro hmem
          rw [contains_eq_true_of_mem hmem] at hgt
          exact absurd hgt (by simp)
        exact contains_eq_false_of_not_mem
          (fun hm => hnm (List.mem_of_mem_filter hm))
      · have hmem : '>' ∈ r := mem_of_contains hgt
        have hmf : '>' ∈ r.filter isAngle :=
          List.mem_filter.mpr ⟨hmem, by rfl⟩
        exact contains_eq_true_of_mem hmf
    · by_cases ha : isAngle c = true
      · rw [if_pos (by simp [ha])]
        show ltThenGt (c :: r.filter isAngle) = ltThenGt (c :: r)
        simp only [ltThenGt, if_neg hc]
        exact ih
      · rw [if_neg (by simp [ha])]
        show ltThenGt (r.filter isAngle) = ltThenGt (c :: r)
        rw [ih]
        simp only [ltThenGt, if_neg hc]

theorem strip_html_eq (s : Str) :
    strip_html s =
      pstrip (wsSub (entityUnescape (tagStrip
        (blockStrip (chars "<style") (chars "</style>")
          (blockStrip (chars "<script") (chars "</script>") s))))) := rfl

theorem entityUnescape_id (t : Str) (h : '&' ∉ t) : entityUnescape t = t := by
  unfold entityUnescape
  have e1 : pyReplace (chars "&nbsp;") (chars " ") t = t :=
    pyReplace_id_of_not_mem '&' (chars "nbsp;") (chars " ") t.length t (Nat.le_refl _) h
  rw [e1]
  have e2 : pyReplace (chars "&amp;") (chars "&") t = t :=
    pyReplace_id_of_not_mem '&' (chars "amp;") (chars "&") t.length t (Nat.le_refl _) h
  rw [e2]
  have e3 : pyReplace (chars "&lt;") (chars "<") t = t :=
    pyReplace_id_of_not_mem '&' (chars "lt;") (chars "<") t.length t (Nat.le_refl _) h
  rw [e3]
  exact pyReplace_id_of_not_mem '&' (chars "gt;") (chars ">") t.length t (Nat.le_refl _) h

theorem not_amp_blockStrip (openPat closePat : Str) (l : Str) (h : '&' ∉ l) :
    '&' ∉ blockStrip openPat closePat l := by
  intro hm
  rcases mem_blockStrip openPat closePat l.length l (Nat.le_refl _) '&' hm with h1 | h1
  · exact h h1
  · exact absurd h1 (by decide)

theorem not_amp_tagStrip (l : Str) (h : '&' ∉ l) : '&' ∉ tagStrip l := by
  intro hm
  rcases mem_tagStrip l.length l (Nat.le_refl _) '&' hm with h1 | h1
  · exact h h1
  · exact absurd h1 (by decide)

/-- Core of the corrected C6: on inputs without `'&'`, no complete tag
marker (a `'<'` later followed by a `'>'`) survives `strip_html`. -/
theorem strip_html_no_pair_of_no_amp (l : Str) (h : '&' ∉ l) :
    ltThenGt (strip_html l) = false := by
  rw [strip_html_eq]
  set t := tagStrip (blockStrip (chars "<style") (chars "</style>")
    (blockStrip (chars "<script") (chars "</script>") l)) with ht
  have hamp : '&' ∉ t := by
    rw [ht]
    exact not_amp_tagStrip _ (not_amp_blockStrip _ _ _ (not_amp_blockStrip _ _ _ h))
  rw [entityUnescape_id t hamp]
  have hws : ∀ c, isWs c = true → isAngle c = false := isAngle_false_of_ws
  have e1 : ltThenGt (pstrip (wsSub t)) =
      ltThenGt ((pstrip (wsSub t)).filter isAngle) := (ltThenGt_filter _).symm
  rw [e1]
  show ltThenGt ((rstripWs ((wsSub t).dropWhile isWs)).filter isAngle) = false
  rw [filter_rstripWs isAngle hws, filter_dropWhileWs isAngle hws,
    filter_wsSub isAngle hws t.length t (Nat.le_refl _), ltThenGt_filter]
  rw [ht]
  exact tagStrip_no_pair _ _ (Nat.le_refl _)

/-- Core of the corrected C5: `strip_html` is idempotent on every input
whose output holds neither `'<'` nor `'&'`. -/
theorem strip_html_idem_of_output (s : Str)
    (h1 : '<' ∉ strip_html s) (h2 : '&' ∉ strip_html s) :
    strip_html (strip_html s) = strip_html s := by
  have hfix := collapse_fix (entityUnescape (tagStrip
    (blockStrip (chars "<style") (chars "</style>")
      (blockStrip (chars "<script") (chars "</script>") s))))
  have hout : strip_html s =
      pstrip (wsSub (entityUnescape (tagStrip
        (blockStrip (chars "<style") (chars "</style>")
          (blockStrip (chars "<script") (chars "</script>") s))))) := strip_html_eq s
  rw [strip_html_eq (strip_html s)]
  have e1 : blockStrip (chars "<script") (chars "</script>") (strip_html s) =
      strip_html s :=
    blockStrip_id_of_no_lt _ _ (chars "script") rfl (strip_html s).length _
      (Nat.le_refl _) h1
  rw [e1]
  have e2 : blockStrip (chars "<style") (chars "</style>") (strip_html s) =
      strip_html s :=
    blockStrip_id_of_no_lt _ _ (chars "style") rfl (strip_html s).length _
      (Nat.le_refl _) h1
  rw [e2]
  have e3 : tagStrip (strip_html s) = strip_html s :=
    tagStrip_id_of_no_lt (strip_html s).length _ (Nat.le_refl _) h1
  rw [e3]
  rw [entityUnescape_id _ h2]
  rw [hout]
  rw [hfix.1, hfix.2]

/-! ## The line-count corrector -/

theorem pad7F_eq :
    ∀ fuel (l : List Str), 7 - l.length ≤ fuel →
      pad7F fuel l = l ++ List.replicate (7 - l.length) NA := by
  intro fuel
  induction fuel with
  | zero =>
    intro l hl
    have h7 : 7 - l.length = 0 := Nat.le_zero.mp hl
    rw [pad7F, h7]
    simp
  | succ fuel ih =>
    intro l hl
    rw [pad7F]
    by_cases h : l.length < 7
    · rw [if_pos h]
      have hlen : (l ++ [NA]).length = l.length + 1 := by simp
      rw [ih (l ++ [NA]) (by rw [hlen]; omega)]
      rw [hlen, List.append_assoc]
      congr 1
      have h1 : 7 - l.length = (7 - (l.length + 1)) + 1 := by omega
      rw [h1, List.replicate_succ]
      rfl
    · rw [if_neg h]
      have h7 : 7 - l.length = 0 := by omega
      rw [h7]
      simp

theorem pad7_eq (l : List Str) (h : l.length ≤ 7) :
    pad7 l = l ++ List.replicate (7 - l.length) NA :=
  pad7F_eq 7 l (by omega)

theorem correct7_length (l : List Str) : (correct7 l).length = 7 := by
  unfold correct7
  by_cases h : l.length = 7
  · rw [if_pos h]; exact h
  · rw [if_neg h]
    have ht : (l.take 7).length = min 7 l.length := List.length_take _ _
    rw [pad7_eq _ (by omega)]
    simp only [List.length_append, List.length_replicate, ht]
    omega

theorem correct7_id (l : List Str) (h : l.length = 7) : correct7 l = l := by
  unfold correct7
  rw [if_pos h]

theorem correct7_truncate (l : List Str) (h : 7 ≤ l.length) :
    correct7 l = l.take 7 := by
  unfold correct7
  by_cases he : l.length = 7
  · rw [if_pos he, ← he, List.take_length]
  · rw [if_neg he]
    have ht : (l.take 7).length = 7 := by
      rw [List.length_take]; omega
    rw [pad7_eq _ (by omega), ht]
    simp

theorem correct7_pad (l : List Str) (h : l.length ≤ 7) :
    correct7 l = l ++ List.replicate (7 - l.length) NA := by
  unfold correct7
  by_cases he : l.length = 7
  · rw [if_pos he, he]
    simp
  · rw [if_neg he, List.take_of_length_le h]
    exact pad7_eq l h

theorem sourceLoop_eq (http : Str → HttpOutcome) (srcs : List (Str × Str)) :
    ∀ prio : List Str,
      sourceLoop http srcs prio =
        (prio.filter (srcPresent srcs)).flatMap (fun src =>
          [sourceHeader src (urlOf srcs src) (fetch_text http (urlOf srcs src)).1,
           (fetch_text http (urlOf srcs src)).2.take (capOf src)]) := by
  intro prio
  induction prio with
  | nil => rfl
  | cons src rest ih =>
    rw [List.filter_cons]
    cases hl : List.lookup src srcs with
    | none =>
      have hp : srcPresent srcs src = false := by
        simp [srcPresent, urlOf, hl]
      rw [if_neg (by simp [hp])]
      show sourceLoop http srcs (src :: rest) = _
      unfold sourceLoop
      rw [hl, ← ih]
    | some url =>
      by_cases hu : url = []
      · have hp : srcPresent srcs src = false := by
          simp [srcPresent, urlOf, hl, hu]
        rw [if_neg (by simp [hp])]
        show sourceLoop http srcs (src :: rest) = _
        unfold sourceLoop
        rw [hl]
        simp only [if_pos hu]
        exact ih
      · have hp : srcPresent srcs src = true := by
          simp [srcPresent, urlOf, hl]
          exact hu
        have hurl : urlOf srcs src = url := by simp [urlOf, hl]
        rw [if_pos (by simp [hp])]
        show sourceLoop http srcs (src :: rest) = _
        unfold sourceLoop
        rw [hl]
        simp only [if_neg hu]
        rw [List.flatMap_cons, hurl, ← ih]
        rfl

theorem isSubSeg_append_left (pat : Str) (x : Str) {r : Str}
    (h : isSubSeg pat r = true) : isSubSeg pat (x ++ r) = true := by
  induction x with
  | nil => exact h
  | cons c x' ih =>
    show (pat.isPrefixOf (c :: (x' ++ r)) || isSubSeg pat (x' ++ r)) = true
    rw [ih]
    simp

theorem rstripWs_append (x : Str) :
    ∀ d : Str, rstripWs d ≠ [] → rstripWs (x ++ d) = x ++ rstripWs d := by
  induction x with
  | nil => intro d _; rfl
  | cons c x' ih =>
    intro d hd
    have h1 : rstripWs (x' ++ d) = x' ++ rstripWs d := ih d hd
    have h2 : x' ++ rstripWs d ≠ [] := by
      intro h
      rcases List.append_eq_nil.mp h with ⟨_, h3⟩
      exact hd h3
    show (match rstripWs (x' ++ d) with
      | [] => if isWs c then [] else [c]
      | d :: t => c :: d :: t) = c :: (x' ++ rstripWs d)
    rw [h1]
    obtain ⟨e, u, heq⟩ := List.exists_cons_of_ne_nil h2
    rw [heq]

/-- The prompt with the outer `.strip()` pushed into the two literal
ends: the f-string body starts with a newline and one non-blank literal
line and ends with the rules block and a final newline, so the strip
only trims those. -/
theorem promptText_eq (area label blob : Str) :
    promptText area label blob =
      chars "You are producing ONE forecast cell for ONE area and ONE day.\n\nAREA: " ++
        (area ++ (promptPartB ++ (label ++ (promptPartC ++
          (blob ++ rstripWs promptPartD))))) := by
  unfold promptText pstrip
  have hd : rstripWs promptPartD ≠ [] := by decide
  have h1 : promptPartA ++ area ++ promptPartB ++ label ++ promptPartC ++ blob ++ promptPartD
      = promptPartA ++ (area ++ (promptPartB ++ (label ++ (promptPartC ++
          (blob ++ promptPartD))))) := by
    simp [List.append_assoc]
  rw [h1]
  have h2 : (promptPartA ++ (area ++ (promptPartB ++ (label ++ (promptPartC ++
      (blob ++ promptPartD)))))).dropWhile isWs =
      chars "You are producing ONE forecast cell for ONE area and ONE day.\n\nAREA: " ++
        (area ++ (promptPartB ++ (label ++ (promptPartC ++ (blob ++ promptPartD))))) := by
    rw [List.dropWhile_append]
    rw [if_neg (by decide)]
    have : promptPartA.dropWhile isWs =
        chars "You are producing ONE forecast cell for ONE area and ONE day.\n\nAREA: " := by
      decide
    rw [this]
  rw [h2]
  have h3 : ∀ y : Str, rstripWs (y ++ promptPartD) = y ++ rstripWs promptPartD :=
    fun y => rstripWs_append y promptPartD hd
  rw [show (chars "You are producing ONE forecast cell for ONE area and ONE day.\n\nAREA: " ++
      (area ++ (promptPartB ++ (label ++ (promptPartC ++ (blob ++ promptPartD)))))) =
      ((chars "You are producing ONE forecast cell for ONE area and ONE day.\n\nAREA: " ++
        (area ++ (promptPartB ++ (label ++ (promptPartC ++ blob))))) ++ promptPartD) by
    simp [List.append_assoc]]
  rw [h3]
  simp [List.append_assoc]

theorem lines_to_cell_html_eq (lines : List Str) :
    lines_to_cell_html lines =
      chars "<div class=\"lines\">" ++
        ((cleanLines lines).map (fun t => spanWrap (esc t))).flatten ++
        chars "</div>" := by
  unfold lines_to_cell_html cleanLines
  congr 1
  congr 1
  congr 1
  induction lines with
  | nil => rfl
  | cons ln rest ih =>
    rw [List.filterMap_cons, List.map_cons, List.filter_cons]
    by_cases h : pstrip ln = []
    · rw [h]
      rw [if_pos rfl]
      rw [if_neg (by decide)]
      show List.filterMap _ rest = _
      exact ih
    · have hne : (!(pstrip ln).isEmpty) = true := by
        cases hl : pstrip ln
        · exact absurd hl h
        · rfl
      rw [if_neg h, if_pos hne]
      show spanWrap (esc (pstrip ln)) :: List.filterMap _ rest = _
      rw [List.map_cons, ih]

theorem not_mem_esc_lt (s : Str) : '<' ∉ esc s := by
  intro hm
  unfold esc at hm
  have hlt : chars "<" = ['<'] := rfl
  have hgt : chars ">" = ['>'] := rfl
  rw [hgt] at hm
  rcases mem_pyReplace_single '>' (chars "&gt;") _ _ (Nat.le_refl _) '<' hm with h1 | h1
  · exact absurd h1 (by decide)
  · rw [hlt] at h1
    rcases mem_pyReplace_single '<' (chars "&lt;") _ _ (Nat.le_refl _) '<' h1.1 with h2 | h2
    · exact absurd h2 (by decide)
    · exact h2.2 rfl

theorem not_mem_esc_gt (s : Str) : '>' ∉ esc s := by
  intro hm
  unfold esc at hm
  have hgt : chars ">" = ['>'] := rfl
  rw [hgt] at hm
  rcases mem_pyReplace_single '>' (chars "&gt;") _ _ (Nat.le_refl _) '>' hm with h1 | h1
  · exact absurd h1 (by decide)
  · exact h1.2 rfl

/-! ## Success of the cell-building loops -/

theorem buildSlots_ok (complete : Str → Completion) (area blob : Str) :
    ∀ (ps : List (Str × Str)) m, buildSlots complete area blob ps = some m →
      ∀ p ∈ ps, (ask_area_for_day complete area p.2 blob).isSome = true := by
  intro ps
  induction ps with
  | nil => intro m _ p hp; exact absurd hp (List.not_mem_nil p)
  | cons hd rest ih =>
    intro m hsome p hp
    obtain ⟨slot, label⟩ := hd
    unfold buildSlots at hsome
    split at hsome
    · exact absurd hsome (by simp)
    · rename_i lines h1
      split at hsome
      · exact absurd hsome (by simp)
      · rename_i m' h2
        rcases List.mem_cons.mp hp with hph | hph
        · rw [hph]
          show (ask_area_for_day complete area label blob).isSome = true
          rw [h1]
          rfl
        · exact ih m' h2 p hph

theorem buildAreasFrom_ok (env : Env) :
    ∀ (as : List Str) M, buildAreasFrom env as = some M →
      ∀ a ∈ as, ∀ p ∈ slotPairs env,
        (ask_area_for_day env.complete a p.2
          (build_area_sources_blob env.http a)).isSome = true := by
  intro as
  induction as with
  | nil => intro M _ a ha; exact absurd ha (List.not_mem_nil a)
  | cons area rest ih =>
    intro M hsome a ha p hp
    unfold buildAreasFrom at hsome
    split at hsome
    · exact absurd hsome (by simp)
    · rename_i cellsA h1
      split at hsome
      · exact absurd hsome (by simp)
      · rename_i M' h2
        rcases List.mem_cons.mp ha with hah | hah
        · rw [hah]
          exact buildSlots_ok env.complete area _ (slotPairs env) cellsA h1 p hp
        · exact ih M' h2 a hah p hp

/-! ## The claims -/

/-- C1: for every run in which some required (area, slot) cell's
completion call fails (`ask_area_for_day` yields no lines), `main`
terminates with exit code 0 and performs no file write, so the
previously published `index.html` is untouched byte-for-byte; the page
file is written only if every required cell was produced (each produced
cell passed the 7-line contract by construction of the corrector). -/
theorem run_aborts_without_write_on_missing_cell (env : Env)
    (h : ∃ c ∈ requiredCells env, cellProduced env c.1 c.2 = false) :
    (mainRun env).writes = [] ∧ (mainRun env).exit = ExitKind.code 0 := by
  obtain ⟨c, hmem, hfail⟩ := h
  unfold mainRun
  cases hk : env.apiKey with
  | none => exact ⟨rfl, rfl⟩
  | some k =>
    cases hb : buildAreasFrom env AREAS with
    | none => exact ⟨rfl, rfl⟩
    | some cells =>
      exfalso
      obtain ⟨a, ha, hmm⟩ := List.mem_flatMap.mp hmem
      obtain ⟨lbl, hlbl, hpair⟩ := List.mem_map.mp hmm
      have hprod : (ask_area_for_day env.complete a lbl
          (build_area_sources_blob env.http a)).isSome = true := by
        have hok := buildAreasFrom_ok env AREAS cells hb a ha
        simp only [requiredLabels, List.mem_cons, List.not_mem_nil, or_false] at hlbl
        rcases hlbl with h1 | h1 | h1 | h1
        · exact h1 ▸ hok (chars "day1", env.day1) (by simp [slotPairs])
        · exact h1 ▸ hok (chars "day2", env.day2) (by simp [slotPairs])
        · exact h1 ▸ hok (chars "day3", env.day3) (by simp [slotPairs])
        · exact h1 ▸ hok (chars "outlook", outlookLabel) (by simp [slotPairs])
      rw [← hpair] at hfail
      unfold cellProduced at hfail
      rw [hprod] at hfail
      exact absurd hfail (by simp)

theorem run_aborts_without_write_on_missing_cell_witness :
    (mainRun envFailingCompletion).writes = [] :=
  (run_aborts_without_write_on_missing_cell envFailingCompletion (by decide)).1

/-- C2: for every run with the credential absent, `main` is a clean
no-op: it exits with code 0 and never opens `index.html` for writing
(the write list of the run is empty). -/
theorem missing_credential_clean_noop (env : Env) (h : env.apiKey = none) :
    mainRun env = ⟨ExitKind.code 0, []⟩ := by
  unfold mainRun
  rw [h]

theorem missing_credential_clean_noop_witness :
    mainRun envNoKey = ⟨ExitKind.code 0, []⟩ :=
  missing_credential_clean_noop envNoKey rfl

/-- C3: for every completion text that is non-empty after stripping,
`ask_area_for_day` returns exactly the corrector's output on the
split-into-non-empty-lines result, and the corrector (N = 7, sentinel
`"n/a"`) always returns exactly 7 lines: more than 7 lines are truncated
to the first 7, fewer are padded with the sentinel, and exactly 7 pass
through unchanged. -/
theorem corrector_returns_exactly_seven
    (complete : Str → Completion) (area label blob s : Str)
    (hc : complete (promptText area label blob) = Completion.content s)
    (hne : pstrip s ≠ []) :
    ask_area_for_day complete area label blob =
      some (correct7 (splitClean (pstrip s)))
    ∧ ∀ ls : List Str,
        (correct7 ls).length = 7
        ∧ (ls.length = 7 → correct7 ls = ls)
        ∧ (7 ≤ ls.length → correct7 ls = ls.take 7)
        ∧ (ls.length ≤ 7 →
            correct7 ls = ls ++ List.replicate (7 - ls.length) NA) := by
  constructor
  · unfold ask_area_for_day
    rw [hc]
    show (if pstrip s = [] then none
      else some (correct7 (splitClean (pstrip s)))) = _
    rw [if_neg hne]
  · intro ls
    exact ⟨correct7_length ls, correct7_id ls, correct7_truncate ls, correct7_pad ls⟩

theorem corrector_returns_exactly_seven_witness :
    ask_area_for_day completeTwoLines (chars "A") (chars "D") (chars "B") =
      some [chars "a", chars "b", NA, NA, NA, NA, NA] := by
  have h := corrector_returns_exactly_seven completeTwoLines
    (chars "A") (chars "D") (chars "B") (chars "a\nb") rfl (by decide)
  rw [h.1]
  decide

/-- C4: for every region, every source mapping and every outcome of the
per-source fetches, the blob is the area banner followed by the parts
for exactly the present sources (present = mapped to a non-empty URL),
in the fixed priority order mwis, metoffice, windy, mountainforecast;
absent sources are skipped, and each emitted text segment is truncated
to at most the source's character budget. -/
theorem blob_priority_order_and_budgets (http : Str → HttpOutcome)
    (area : Str) (srcs : List (Str × Str)) :
    build_area_sources_blob http area =
      List.intercalate (chars "\n")
        ((chars "=== AREA: " ++ area ++ chars " ===") ::
          sourceLoop http ((URLS.lookup area).getD []) SOURCE_PRIORITY)
    ∧ sourceLoop http srcs SOURCE_PRIORITY =
        (SOURCE_PRIORITY.filter (srcPresent srcs)).flatMap (fun src =>
          [sourceHeader src (urlOf srcs src) (fetch_text http (urlOf srcs src)).1,
           (fetch_text http (urlOf srcs src)).2.take (capOf src)])
    ∧ (SOURCE_PRIORITY.filter (srcPresent srcs)).all (fun src =>
        decide (((fetch_text http (urlOf srcs src)).2.take (capOf src)).length ≤
          capOf src)) = true
    ∧ SOURCE_PRIORITY =
        [chars "mwis", chars "metoffice", chars "windy", chars "mountainforecast"] := by
  refine ⟨rfl, sourceLoop_eq http srcs SOURCE_PRIORITY, ?_, rfl⟩
  rw [List.all_eq_true]
  intro src _
  rw [decide_eq_true_eq, List.length_take]
  exact Nat.min_le_left _ _

/-- C5 counterexample: `strip_html` is not idempotent — unescaping
`&amp;amp;` yields `&amp;`, which a second pass unescapes again. -/
theorem strip_html_not_idempotent :
    strip_html (strip_html (chars "&amp;amp;")) ≠ strip_html (chars "&amp;amp;") := by
  decide

/-- C5 (amended): `strip_html` is idempotent on every input whose output
holds neither a `'<'` nor a `'&'` character; entity unescaping can
re-create entities or tags, which is the only source of
non-idempotence. -/
theorem strip_html_idem_on_clean_output (s : Str)
    (h1 : '<' ∉ strip_html s) (h2 : '&' ∉ strip_html s) :
    strip_html (strip_html s) = strip_html s :=
  strip_html_idem_of_output s h1 h2

theorem strip_html_idem_on_clean_output_witness :
    ('<' ∉ strip_html (chars "a  b")) ∧ ('&' ∉ strip_html (chars "a  b")) ∧
      strip_html (strip_html (chars "a  b")) = strip_html (chars "a  b") :=
  ⟨by decide, by decide,
    strip_html_idem_on_clean_output (chars "a  b") (by decide) (by decide)⟩

/-- C6 counterexample: tag markers can survive `strip_html` (entity
unescaping runs after tag stripping, so `&lt;b&gt;` becomes the literal
tag `<b>`), and the content of an unclosed script block survives (only
its `<script>` marker is stripped). -/
theorem strip_html_leaks_markers_and_script :
    ltThenGt (strip_html (chars "&lt;b&gt;")) = true ∧
      strip_html (chars "<script>evil") = chars "evil" := by
  constructor
  · decide
  · decide

/-- C6 (amended): for every input containing no `'&'` character, the
output of `strip_html` contains no complete tag marker — no `'<'` is
followed anywhere later by a `'>'`.  (With `'&'` present, unescaped
entities can re-create markers; and the visible content of an unclosed
script/style block can survive, since only complete blocks are
removed.) -/
theorem strip_html_no_tag_pair_without_amp (l : Str) (h : '&' ∉ l) :
    ltThenGt (strip_html l) = false :=
  strip_html_no_pair_of_no_amp l h

theorem strip_html_no_tag_pair_without_amp_witness :
    ('&' ∉ chars "<p>hi <b>x</b></p") ∧
      ltThenGt (strip_html (chars "<p>hi <b>x</b></p")) = false :=
  ⟨by decide, strip_html_no_tag_pair_without_amp (chars "<p>hi <b>x</b></p") (by decide)⟩

/-- C7: `fetch_text` never raises (it is total over every transport
outcome, the catch-all handler of the source): a response with status
below 400 yields `ok = true` with the `strip_html`-normalized body; a
status at or above 400 or a raised transport error yields `ok = false`
whose text starts with a bracketed diagnostic naming the cause and ends
with the URL. -/
theorem fetch_text_contract (http : Str → HttpOutcome) (url : Str) :
    (∀ st body, http url = HttpOutcome.resp st body →
      fetch_text http url =
        if 400 ≤ st then (false, chars "[HTTP " ++ natChars st ++ chars "] " ++ url)
        else (true, strip_html body))
    ∧ (∀ e, http url = HttpOutcome.exn e →
        fetch_text http url = (false, chars "[FETCH ERROR: " ++ e ++ chars "] " ++ url))
    ∧ ((fetch_text http url).1 = false →
        (fetch_text http url).2.head? = some '[' ∧
          url.isSuffixOf (fetch_text http url).2 = true) := by
  refine ⟨?_, ?_, ?_⟩
  · intro st body h
    unfold fetch_text
    rw [h]
  · intro e h
    unfold fetch_text
    rw [h]
  · intro hfalse
    cases hh : http url with
    | exn e =>
      have heq : fetch_text http url =
          (false, chars "[FETCH ERROR: " ++ e ++ chars "] " ++ url) := by
        unfold fetch_text
        rw [hh]
      rw [heq]
      constructor
      · rfl
      · rw [List.isSuffixOf_iff_suffix]
        exact ⟨chars "[FETCH ERROR: " ++ e ++ chars "] ", by simp [List.append_assoc]⟩
    | resp st body =>
      have heq : fetch_text http url =
          if 400 ≤ st then (false, chars "[HTTP " ++ natChars st ++ chars "] " ++ url)
          else (true, strip_html body) := by
        unfold fetch_text
        rw [hh]
      by_cases hst : 400 ≤ st
      · rw [heq, if_pos hst]
        constructor
        · rfl
        · rw [List.isSuffixOf_iff_suffix]
          exact ⟨chars "[HTTP " ++ natChars st ++ chars "] ", by simp [List.append_assoc]⟩
      · rw [heq, if_neg hst] at hfalse
        exact absurd hfalse (by simp)

theorem fetch_text_contract_witness :
    fetch_text httpBoom (chars "http://x") =
      (false, chars "[FETCH ERROR: boom] http://x") := by
  have h := (fetch_text_contract httpBoom (chars "http://x")).2.1 (chars "boom") rfl
  rw [h]
  decide

theorem exit_nonzero_on_unreadable_template :
    (mainRun envNoTemplate).exit ≠ ExitKind.code 0 := by
  decide

/-- C8 (amended): on every run in which the template file read does not
raise, the process exits 0; in particular each of the listed failure
modes — missing credential, fetch failure, completion failure, missing
cell — is logged-and-benign and exits 0 without reaching the template. -/
theorem exit_zero_when_template_readable (env : Env)
    (h : env.template ≠ none) :
    (mainRun env).exit = ExitKind.code 0 := by
  unfold mainRun
  cases hk : env.apiKey with
  | none => rfl
  | some k =>
    cases hb : buildAreasFrom env AREAS with
    | none => rfl
    | some cells =>
      cases ht : env.template with
      | none => exact absurd ht h
      | some tpl => rfl

theorem exit_zero_when_template_readable_witness :
    (mainRun envFailingCompletion).exit = ExitKind.code 0 :=
  exit_zero_when_template_readable envFailingCompletion (by decide)

/-- C9: the reconciliation policy for ranges exists in the code only as
natural-language rules embedded verbatim in every prompt handed to the
completion service: for every area, day label and source blob, the
prompt contains the rules that a degenerate range collapses to the
single value, that a proper range is shown alone (no average/current
value), that ranges use the word "to" and never hyphens, and that a
metric no source reports gets the sentinel `n/a`. -/
theorem prompt_encodes_range_rules (area label blob : Str) :
    isSubSeg (chars "  * If min = max, show only the single value (no range).")
      (promptText area label blob) = true
    ∧ isSubSeg (chars "  * If min ≠ max, show ONLY the range and do NOT include any average/current value.")
        (promptText area label blob) = true
    ∧ isSubSeg (chars "  * Always use \"to\" for ranges (never hyphens).")
        (promptText area label blob) = true
    ∧ isSubSeg (chars "- Use values you can clearly extract from sources; otherwise use \"n/a\".")
        (promptText area label blob) = true := by
  rw [promptText_eq]
  refine ⟨?_, ?_, ?_, ?_⟩ <;>
    · apply isSubSeg_append_left
      apply isSubSeg_append_left
      apply isSubSeg_append_left
      apply isSubSeg_append_left
      apply isSubSeg_append_left
      apply isSubSeg_append_left
      decide

/-- C10: `lines_to_cell_html` keeps exactly the stripped non-blank
lines, escapes `&`, `<`, `>` in that order in each kept line, wraps each
in a span and the whole in the lines div; consequently no `'<'` or `'>'`
character coming from a model-output line survives unescaped — every
escaped line is free of both characters. -/
theorem lines_to_cell_html_contract (lines : List Str) :
    lines_to_cell_html lines =
      chars "<div class=\"lines\">" ++
        ((cleanLines lines).map (fun t => spanWrap (esc t))).flatten ++
        chars "</div>"
    ∧ (cleanLines lines).all
        (fun t => !(esc t).contains '<' && !(esc t).contains '>') = true := by
  refine ⟨lines_to_cell_html_eq lines, ?_⟩
  rw [List.all_eq_true]
  intro t _
  rw [Bool.and_eq_true, Bool.not_eq_true', Bool.not_eq_true']
  exact ⟨contains_eq_false_of_not_mem (not_mem_esc_lt t),
    contains_eq_false_of_not_mem (not_mem_esc_gt t)⟩
